import Mathlib

/-!
Verification development for the highlight-detection pipeline of the
clippy-ai-agent repository (`src/core/content_analyzer.py` and
`src/ai/llm_analyzer.py`).

Times, scores and confidences are Python floats in the source; they are
modelled as rationals (`ℚ`).  Python strings are modelled as `String`,
with character-level helpers defined below mirroring `in`, `.lower()`,
`.split()`, `' '.join`, `.title()` and `.strip()` for the ASCII texts the
program manipulates.  Python dicts with a fixed key set are modelled as
structures; a key that a code path may leave absent is modelled as an
`Option` field.  The external LLM (`gpt4all` model) is an opaque
collaborator: its per-chunk outcome is passed in as an oracle argument
(`Except Unit (Option (List RawHighlight))`): `.error` models
`model.generate` raising, `.ok none` models a response in which no JSON
object could be extracted or `json.loads` failed, `.ok (some raws)`
models a successfully parsed `highlights` array whose entries may lack
individual keys.  `random.choice` in the enricher is modelled by an
oracle `choose : List String → String`.
-/

/-- `occursInL needle hay`: the Python substring test `needle in hay`
over character lists (true for the empty needle, as in Python). -/
def occursInL (needle : List Char) : List Char → Bool
  | [] => needle.isEmpty
  | c :: rest => needle.isPrefixOf (c :: rest) || occursInL needle rest

/-- Python `needle in hay` on strings. -/
def occursIn (needle hay : String) : Bool :=
  occursInL needle.data hay.data

/-- Python `str.lower()` (the program only lowercases ASCII text). -/
def lowerStr (s : String) : String :=
  String.mk (s.data.map Char.toLower)

/-- Helper for `wordsOf`: splits a character list at whitespace runs,
accumulating the current word in reverse. -/
def wordsAux (cur : List Char) : List Char → List String
  | [] => if cur.isEmpty then [] else [String.mk cur.reverse]
  | c :: rest =>
    if c.isWhitespace then
      if cur.isEmpty then wordsAux [] rest
      else String.mk cur.reverse :: wordsAux [] rest
    else wordsAux (c :: cur) rest

/-- Python `str.split()` with no argument: split on whitespace runs,
dropping empty pieces. -/
def wordsOf (s : String) : List String :=
  wordsAux [] s.data

/-- Python `' '.join(xs)`. -/
def joinSpace : List String → String
  | [] => ""
  | [s] => s
  | s :: rest => s ++ " " ++ joinSpace rest

/-- Helper for `titleStr`: the flag records whether the previous
character was a letter. -/
def titleAux (prevAlpha : Bool) : List Char → List Char
  | [] => []
  | c :: rest =>
    if c.isAlpha then
      (if prevAlpha then c.toLower else c.toUpper) :: titleAux true rest
    else c :: titleAux false rest

/-- Python `str.title()` for the ASCII texts the program handles. -/
def titleStr (s : String) : String :=
  String.mk (titleAux false s.data)

/-- Python `str.strip()`. -/
def stripStr (s : String) : String :=
  String.mk (((s.data.dropWhile Char.isWhitespace).reverse.dropWhile
    Char.isWhitespace).reverse)

/-- Python `s[-n:]` (the last `n` characters). -/
def takeRightStr (s : String) (n : ℕ) : String :=
  String.mk (s.data.drop (s.data.length - n))

/-- Python `list(dict.fromkeys(l))`: remove duplicates keeping the first
occurrence of each element, preserving order.  `seen` accumulates the
elements already emitted. -/
def dedupGo (seen : List String) : List String → List String
  | [] => []
  | a :: l =>
    if a ∈ seen then dedupGo seen l
    else a :: dedupGo (seen ++ [a]) l

/-- A transcript segment (`{'start': …, 'end': …, 'text': …}` from the
transcription collaborator).  The Python key `end` is a Lean keyword,
hence `start_time` / `end_time`. -/
structure Segment where
  start_time : ℚ
  end_time : ℚ
  text : String
  deriving DecidableEq, Repr

/-- Default used to model Python list indexing where the program only
indexes in range. -/
def dSeg : Segment := ⟨0, 0, ""⟩

/-- A scored segment as produced by `ContentAnalyzer._score_segments`. -/
structure ScoredSegment where
  segment_index : ℕ
  start_time : ℚ
  end_time : ℚ
  text : String
  score : ℚ
  emotions : List String
  duration : ℚ
  deriving DecidableEq, Repr

/-- The `source` tag written by `_combine_analyses`.  The code uses the
string `'llm'` for analyzer-sourced entries (the spec's data model calls
this tag `semantic`). -/
inductive Source where
  | rule_based
  | llm
  | combined
  deriving DecidableEq, Repr

/-- A pre-enrichment highlight dict as it circulates between
`_combine_analyses` and `_filter_highlights`.  The `score` key of
rule-based entries and the `title`/`reason`/`key_quotes`/`emotion` keys
of llm entries are never read downstream and are omitted. -/
structure Highlight where
  start_time : ℚ
  end_time : ℚ
  text : String
  confidence : ℚ
  emotions : List String
  source : Source
  deriving DecidableEq, Repr

/-- An LLM-side highlight dict as produced by `_parse_llm_response` or
`_fallback_analysis`.  `emotions` is an `Option` because the
parse path does not write that key (`.get('emotions', [])` reads it
later) while the fallback path does; likewise `viral_potential` is only
written by the parse path. -/
structure LLMHighlight where
  start_time : ℚ
  end_time : ℚ
  text : String
  confidence : ℚ
  emotion : String
  emotions : Option (List String)
  viral_potential : Option String
  deriving DecidableEq, Repr

/-- One entry of the `highlights` array extracted from the LLM's JSON
response.  Every field is optional: `_parse_llm_response` reads each with
`.get` and a default.  The `title` and `reason` keys are never read by
any downstream computation and are omitted. -/
structure RawHighlight where
  engagement_score : Option ℚ
  emotion : Option String
  viral_potential : Option String
  key_quotes : Option (List String)
  deriving DecidableEq, Repr

/-- A transcript chunk built by `LLMAnalyzer._split_transcript`. -/
structure Chunk where
  text : String
  segments : List Segment
  start_time : ℚ
  end_time : ℚ
  deriving DecidableEq, Repr

/-- The configuration values the pipeline reads, with their documented
defaults.  `emotion_weights` models
`analysis_config.get("emotion_weights", {}).get(emotion, 1.0)` as a total
function. -/
structure Config where
  min_engagement_score : ℚ
  clip_duration_min : ℚ
  clip_duration_max : ℚ
  emotion_weights : String → ℚ
  keywords_boost : List String
  hashtag_min : ℕ
  hashtag_max : ℕ

/-- The default configuration values hard-wired as `.get` fallbacks. -/
def defaultConfig : Config :=
  ⟨3/5, 25, 65, fun _ => 1, [], 5, 10⟩

/-- Video metadata; only `title` is read by the pipeline (Python
truthiness of a string is emptiness, modelled accordingly). -/
structure VideoMeta where
  title : String
  deriving DecidableEq, Repr

/-- A transcript as handed to `find_highlights`. -/
structure Transcript where
  text : String
  segments : List Segment
  deriving DecidableEq, Repr

/-- The five emotion-keyword categories of `ContentAnalyzer`, in the
insertion order of the Python dict. -/
def emotionKeywordTable : List (String × List String) :=
  [("funny",
    ["funny", "hilarious", "laugh", "lol", "comedy", "joke", "humor",
     "ridiculous", "absurd", "crazy", "weird", "bizarre", "silly"]),
   ("shocking",
    ["shocking", "unbelievable", "incredible", "amazing", "wow",
     "surprised", "unexpected", "mind-blowing", "insane", "wtf"]),
   ("inspirational",
    ["inspiring", "motivational", "success", "achievement", "dream",
     "goal", "overcome", "struggle", "victory", "triumph", "hope"]),
   ("educational",
    ["learn", "tutorial", "how to", "explain", "science", "fact",
     "research", "study", "theory", "knowledge", "understand"]),
   ("controversial",
    ["controversial", "debate", "argument", "opinion", "disagree",
     "wrong", "right", "politics", "religion", "sensitive"])]

/-- The ten attention-hook patterns.  They are literal phrases (no regex
metacharacters), matched with `re.search(…, re.IGNORECASE)` against the
already lower-cased text, i.e. plain substring search. -/
def hookPhrases : List String :=
  ["you won\x27t believe", "secret that", "nobody tells you",
   "shocking truth", "never knew", "mind blown",
   "this changes everything", "most people don\x27t know",
   "hidden truth", "real reason why"]

/-- One category of the emotion-detection loop of `_score_segments`:
count the category's keywords occurring in the text; a positive count
adds `count * weight` to the score and records the emotion once. -/
def emotionStep (weights : String → ℚ) (text : String)
    (acc : ℚ × List String) (p : String × List String) : ℚ × List String :=
  let c := p.2.countP (fun kw => occursIn kw text)
  if 0 < c then (acc.1 + (c : ℚ) * weights p.1, acc.2 ++ [p.1]) else acc

/-- The emotion-detection loop of `_score_segments`: accumulates the
keyword score and the list of detected emotions over the five
categories, in dict order. -/
def emotionScoreAcc (weights : String → ℚ) (text : String) : ℚ × List String :=
  emotionKeywordTable.foldl (emotionStep weights text) (0, [])

/-- The score of one segment before the length penalty and position
bonus: emotion keywords (weighted), hook patterns (×2.0), boost
keywords (×1.5).  `text` is the lower-cased segment text. -/
def baseScore (weights : String → ℚ) (boost : List String) (text : String) : ℚ :=
  (emotionScoreAcc weights text).1
    + (hookPhrases.countP (fun p => occursIn p text) : ℚ) * 2
    + (boost.countP (fun k => occursIn (lowerStr k) text) : ℚ) * (3/2)

/-- One iteration of `_score_segments`: `total` is `len(segments)` and
`i` the segment index.  The position test `i < len(segments) * 0.1`
(resp. `i > len(segments) * 0.9`) compares an integer with a float; it
is modelled exactly over ℚ. -/
def scoreOne (weights : String → ℚ) (boost : List String) (total : ℕ) (i : ℕ)
    (seg : Segment) : ScoredSegment :=
  let text := lowerStr seg.text
  let s := baseScore weights boost text
  let wl := (wordsOf text).length
  let s := if wl < 5 then s * (1/2) else if 100 < wl then s * (7/10) else s
  let s := if (i : ℚ) < (total : ℚ) * (1/10) then s * (6/5)
           else if (total : ℚ) * (9/10) < (i : ℚ) then s * (11/10) else s
  { segment_index := i, start_time := seg.start_time, end_time := seg.end_time,
    text := seg.text, score := s, emotions := (emotionScoreAcc weights text).2,
    duration := seg.end_time - seg.start_time }

/-- `ContentAnalyzer._score_segments`. -/
def score_segments (weights : String → ℚ) (boost : List String)
    (segs : List Segment) : List ScoredSegment :=
  segs.mapIdx (fun i seg => scoreOne weights boost segs.length i seg)

/-- `LLMAnalyzer._split_transcript`, as a recursion over the remaining
segments with the chunk under construction as state.  `chunk_size` is
1000 characters and the 200-character overlap is carried only in the
`text` field of the next chunk. -/
def splitGo (cur : Chunk) : List Segment → List Chunk
  | [] => if cur.text = "" then [] else [cur]
  | seg :: rest =>
    if 1000 < (cur.text ++ seg.text).length ∧ cur.text ≠ "" then
      let finalized : Chunk :=
        { cur with end_time := (cur.segments.getLastD dSeg).end_time }
      let overlapText :=
        if 200 < cur.text.length then takeRightStr cur.text 200 else cur.text
      finalized ::
        splitGo { text := overlapText ++ " " ++ seg.text, segments := [seg],
                  start_time := seg.start_time, end_time := seg.end_time } rest
    else
      let st := if cur.segments.isEmpty then seg.start_time else cur.start_time
      splitGo { text := cur.text ++ " " ++ seg.text,
                segments := cur.segments ++ [seg],
                start_time := st, end_time := seg.end_time } rest

/-- `LLMAnalyzer._split_transcript` (the unused `transcript` string
parameter of the Python method is dropped). -/
def split_transcript (segs : List Segment) : List Chunk :=
  splitGo ⟨"", [], 0, 0⟩ segs

/-- The per-segment quote test of `_find_matching_segments`: the quote
occurs in the segment text, or some whitespace-token of the quote
does. -/
def segMatchesQuote (q : String) (seg : Segment) : Bool :=
  let ql := lowerStr q
  let st := lowerStr seg.text
  occursIn ql st || (wordsOf ql).any (fun w => occursIn w st)

/-- The collection loop of `_find_matching_segments`: for each quote in
order, append every matching segment not already collected. -/
def collectMatches (segs : List Segment) (acc : List Segment) :
    List String → List Segment
  | [] => acc
  | q :: qs =>
    collectMatches segs
      (segs.foldl
        (fun a seg =>
          if segMatchesQuote q seg ∧ seg ∉ a then a ++ [seg] else a)
        acc)
      qs

/-- A stable insertion step: `le h x = true` means `h` may be placed
before `x`.  `stableSortBy` below models Python's stable `list.sort`:
any two stable sorts agree, so insertion sort is a faithful model of
timsort's observable behaviour. -/
def stableInsert {α : Type} (le : α → α → Bool) (h : α) : List α → List α
  | [] => [h]
  | x :: xs => if le h x then h :: x :: xs else x :: stableInsert le h xs

/-- Stable sort placing `a` before `b` whenever `le a b` (ties keep
input order). -/
def stableSortBy {α : Type} (le : α → α → Bool) : List α → List α
  | [] => []
  | x :: xs => stableInsert le x (stableSortBy le xs)

/-- `LLMAnalyzer._find_matching_segments`. -/
def find_matching_segments (key_quotes : List String)
    (segs : List Segment) : List Segment :=
  if key_quotes.isEmpty then
    if 3 ≤ segs.length then segs.take 3 else segs
  else
    let ms := stableSortBy (fun a b => decide (a.start_time ≤ b.start_time))
      (collectMatches segs [] key_quotes)
    if ms.isEmpty then
      let qws := dedupGo [] (wordsOf (lowerStr (joinSpace key_quotes)))
      let scored := segs.map
        (fun s => (s, qws.countP (fun w => w ∈ wordsOf (lowerStr s.text))))
      ((stableSortBy (fun a b => decide (b.2 ≤ a.2)) scored).take 3).filterMap
        (fun p => if 0 < p.2 then some p.1 else none)
    else ms

/-- The duration-resolution step of `_parse_llm_response` (lines
250-264): grow a too-short window symmetrically, clamped to the chunk's
start/end times; trim a too-long window symmetrically. -/
def resolveSemanticWindow (chunkStart chunkEnd s e minD maxD : ℚ) : ℚ × ℚ :=
  let d := e - s
  if d < minD then
    let needed := minD - d
    (max chunkStart (s - needed / 2), min chunkEnd (e + needed / 2))
  else if maxD < d then
    let excess := d - maxD
    (s + excess / 2, e - excess / 2)
  else (s, e)

/-- Conversion of one parsed JSON entry into the standard highlight
format (`_parse_llm_response`, given the non-empty matching-segment
list `ms`). -/
def buildLLMHighlight (r : RawHighlight) (ms : List Segment) (chunk : Chunk)
    (minD maxD : ℚ) : LLMHighlight :=
  let w := resolveSemanticWindow chunk.start_time chunk.end_time
    (ms.headD dSeg).start_time (ms.getLastD dSeg).end_time minD maxD
  { start_time := w.1, end_time := w.2,
    text := joinSpace (ms.map Segment.text),
    confidence := r.engagement_score.getD (1/2),
    emotion := r.emotion.getD "neutral",
    emotions := none,
    viral_potential := some (r.viral_potential.getD "medium") }

/-- `LLMAnalyzer._parse_llm_response`.  `parsed = none` models a
response with no extractable JSON object (or a `json.loads` failure):
the method logs and returns the empty list for that chunk. -/
def parse_llm_response (parsed : Option (List RawHighlight)) (chunk : Chunk)
    (minD maxD : ℚ) : List LLMHighlight :=
  match parsed with
  | none => []
  | some raws =>
    raws.filterMap (fun r =>
      let ms := find_matching_segments (r.key_quotes.getD []) chunk.segments
      if ms.isEmpty then none
      else some (buildLLMHighlight r ms chunk minD maxD))

/-- The confidence update of `_rank_highlights`: viral-potential boost,
emotion boost, clamp at 1. -/
def rankConfidence (h : LLMHighlight) : ℚ :=
  let s := h.confidence
  let vp := h.viral_potential.getD "medium"
  let s := if vp = "high" then s * (13/10)
           else if vp = "low" then s * (4/5) else s
  let eb := if h.emotion = "funny" then (6/5 : ℚ)
            else if h.emotion = "shocking" then 11/10
            else if h.emotion = "inspirational" then 1
            else if h.emotion = "controversial" then 11/10
            else if h.emotion = "educational" then 9/10
            else 1
  min (s * eb) 1

/-- `LLMAnalyzer._rank_highlights`: re-score, stable sort by confidence
descending, keep the top 5. -/
def rank_highlights (hs : List LLMHighlight) : List LLMHighlight :=
  (stableSortBy (fun a b => decide (b.confidence ≤ a.confidence))
    (hs.map (fun h => { h with confidence := rankConfidence h }))).take 5

/-- The emotion keyword subsets of `_fallback_analysis`, in dict
order. -/
def fallbackEmotionTable : List (String × List String) :=
  [("shocking", ["unbelievable", "incredible", "amazing", "wow", "surprised"]),
   ("funny", ["funny", "hilarious", "laugh", "joke", "comedy"]),
   ("inspirational", ["inspiring", "motivational", "success", "achievement"])]

/-- The heuristic score and emotion list of one segment in
`_fallback_analysis` (the question-mark test runs on the original text,
the others on the lower-cased text). -/
def fallbackScore (seg : Segment) : ℚ × List String :=
  let tl := lowerStr seg.text
  let acc := fallbackEmotionTable.foldl
    (fun acc p =>
      if p.2.any (fun k => occursIn k tl) then (acc.1 + 3/10, acc.2 ++ [p.1])
      else acc)
    ((0 : ℚ), ([] : List String))
  let s := acc.1
  let s := if occursIn "?" seg.text then s + 1/5 else s
  let s := if ["i ", "my ", "me "].any (fun p => occursIn p tl) then s + 1/10
           else s
  let s := if ["best", "worst", "biggest", "smallest", "most", "least"].any
      (fun w => occursIn w tl) then s + 1/5 else s
  (s, acc.2)

/-- One iteration of the `_fallback_analysis` loop: a segment scoring at
least 0.4 becomes a highlight spanning segments `max(0,i-1)` to
`min(len-1,i+2)`. -/
def fallbackBuild (segs : List Segment) (i : ℕ) (seg : Segment) :
    Option LLMHighlight :=
  let p := fallbackScore seg
  if (2 : ℚ)/5 ≤ p.1 then
    let si := i - 1
    let ei := min (segs.length - 1) (i + 2)
    some { start_time := (segs.getD si dSeg).start_time,
           end_time := (segs.getD ei dSeg).end_time,
           text := joinSpace (((segs.drop si).take (ei + 1 - si)).map Segment.text),
           confidence := p.1,
           emotion := p.2.headD "neutral",
           emotions := some p.2,
           viral_potential := none }
  else none

/-- `LLMAnalyzer._fallback_analysis`: deterministic rule-based analysis,
returning the first 3 matches. -/
def fallback_analysis (segs : List Segment) : List LLMHighlight :=
  ((segs.mapIdx (fallbackBuild segs)).reduceOption).take 3

/-- `LLMAnalyzer._analyze_chunk`: an exception from `model.generate`
(`.error`) is caught and yields the empty list for the chunk; otherwise
the response is parsed. -/
def analyze_chunk (outcome : Except Unit (Option (List RawHighlight)))
    (chunk : Chunk) (minD maxD : ℚ) : List LLMHighlight :=
  match outcome with
  | .error _ => []
  | .ok parsed => parse_llm_response parsed chunk minD maxD

/-- `LLMAnalyzer.analyze_content`: with no model loaded, fall back to
the rule-based analysis; otherwise chunk the transcript, analyze each
chunk (`gen i` is the oracle outcome for chunk `i`), concatenate and
rank. -/
def analyze_content (cfg : Config) (modelLoaded : Bool)
    (gen : ℕ → Except Unit (Option (List RawHighlight)))
    (segments : List Segment) : List LLMHighlight :=
  if modelLoaded then
    rank_highlights
      (((split_transcript segments).mapIdx
        (fun i c =>
          analyze_chunk (gen i) c cfg.clip_duration_min cfg.clip_duration_max)).flatten)
  else fallback_analysis segments

/-- The forward-extension loop of `_combine_analyses`: while
`end_idx < len(segs) - 1` and the duration is below `minD`, advance
`end_idx` and recompute the duration from segment boundaries.  `fuel`
bounds the iteration count; `segs.length` always suffices because
`end_idx` strictly increases and stays below `segs.length`. -/
def extendFwd (segs : List Segment) (minD : ℚ) (si : ℕ) :
    ℕ → ℕ → ℚ → ℕ × ℚ
  | 0, ei, total => (ei, total)
  | fuel + 1, ei, total =>
    if ei + 1 < segs.length ∧ total < minD then
      extendFwd segs minD si fuel (ei + 1)
        ((segs.getD (ei + 1) dSeg).end_time - (segs.getD si dSeg).start_time)
    else (ei, total)

/-- The backward-extension loop of `_combine_analyses`: while
`start_idx > 0` and the duration is below `minD`, move `start_idx` back.
Fuel equal to the initial `start_idx` suffices. -/
def extendBwd (segs : List Segment) (minD : ℚ) (ei : ℕ) :
    ℕ → ℕ → ℚ → ℕ × ℚ
  | 0, si, total => (si, total)
  | fuel + 1, si, total =>
    if 0 < si ∧ total < minD then
      extendBwd segs minD ei fuel (si - 1)
        ((segs.getD ei dSeg).end_time - (segs.getD (si - 1) dSeg).start_time)
    else (si, total)

/-- The trimming loop of `_combine_analyses`: while the duration exceeds
`maxD` and `end_idx > start_idx`, move `end_idx` back.  Fuel equal to
the initial `end_idx` suffices. -/
def trimEnd (segs : List Segment) (maxD : ℚ) (si : ℕ) :
    ℕ → ℕ → ℚ → ℕ × ℚ
  | 0, ei, total => (ei, total)
  | fuel + 1, ei, total =>
    if maxD < total ∧ si < ei then
      trimEnd segs maxD si fuel (ei - 1)
        ((segs.getD (ei - 1) dSeg).end_time - (segs.getD si dSeg).start_time)
    else (ei, total)

/-- The index window `(start_idx, end_idx)` a high-scoring segment is
resolved to in `_combine_analyses`: extend forward, then backward, then
trim from the end. -/
def ruleWindow (cfg : Config) (segs : List Segment) (s : ScoredSegment) : ℕ × ℕ :=
  let i := s.segment_index
  let f := extendFwd segs cfg.clip_duration_min i segs.length i s.duration
  let b := extendBwd segs cfg.clip_duration_min f.1 i i f.2
  let t := trimEnd segs cfg.clip_duration_max b.1 f.1 f.1 b.2
  (b.1, t.1)

/-- Conversion of one high-scoring segment into a rule-based highlight
(`_combine_analyses`, first loop): window resolution, text join over the
covered segments, confidence `min(score/3, 1)`. -/
def convertRule (cfg : Config) (segs : List Segment) (s : ScoredSegment) :
    Highlight :=
  let w := ruleWindow cfg segs s
  { start_time := (segs.getD w.1 dSeg).start_time,
    end_time := (segs.getD w.2 dSeg).end_time,
    text := joinSpace (((segs.drop w.1).take (w.2 + 1 - w.1)).map Segment.text),
    confidence := min (s.score / 3) 1,
    emotions := s.emotions,
    source := Source.rule_based }

/-- The first loop of `_combine_analyses`: every scored segment with
score at least `min_engagement_score` is converted, the rest are
skipped. -/
def ruleHighlights (cfg : Config) (segs : List Segment) :
    List ScoredSegment → List Highlight
  | [] => []
  | s :: rest =>
    if cfg.min_engagement_score ≤ s.score then
      convertRule cfg segs s :: ruleHighlights cfg segs rest
    else ruleHighlights cfg segs rest

/-- The proximity test of the second loop of `_combine_analyses`:
`abs(llm.start - existing.start) < 10 or abs(llm.end - existing.end) < 10`. -/
def matchesMoment (c : LLMHighlight) (e : Highlight) : Bool :=
  decide (|c.start_time - e.start_time| < 10 ∨ |c.end_time - e.end_time| < 10)

/-- `existing.update(llm_highlight)` followed by
`existing['source'] = 'combined'`: the keys present in the llm dict
(start, end, text, confidence, and emotions when the fallback produced
it) overwrite the existing entry's; the `emotions` key survives when the
llm dict lacks it. -/
def updateEntry (e : Highlight) (c : LLMHighlight) : Highlight :=
  { start_time := c.start_time, end_time := c.end_time, text := c.text,
    confidence := c.confidence, emotions := c.emotions.getD e.emotions,
    source := Source.combined }

/-- An unmatched llm highlight appended with `source = 'llm'`
(`llm_highlight['source'] = 'llm'`; its `emotions` key may be absent,
read later with default `[]`). -/
def toHighlightLLM (c : LLMHighlight) : Highlight :=
  { start_time := c.start_time, end_time := c.end_time, text := c.text,
    confidence := c.confidence, emotions := c.emotions.getD [],
    source := Source.llm }

/-- The inner loop of the second phase of `_combine_analyses` for one
llm candidate: scan `combined` for the first entry within 10 seconds;
on a hit, replace it by the candidate when the candidate's confidence is
strictly higher (marking it `combined`) and stop (`break`).  Returns
`none` when no entry matches. -/
def mergeOne (c : LLMHighlight) : List Highlight → Option (List Highlight)
  | [] => none
  | e :: rest =>
    if matchesMoment c e then
      some ((if e.confidence < c.confidence then updateEntry e c else e) :: rest)
    else (mergeOne c rest).map (e :: ·)

/-- Processing of one llm candidate against the accepted list: matched
candidates merge in place, unmatched ones are appended with
`source = 'llm'`. -/
def addOne (combined : List Highlight) (c : LLMHighlight) : List Highlight :=
  match mergeOne c combined with
  | some l => l
  | none => combined ++ [toHighlightLLM c]

/-- `ContentAnalyzer._combine_analyses`: rule-based conversion followed
by the llm merge loop. -/
def combine_analyses (cfg : Config) (scored : List ScoredSegment)
    (llm : List LLMHighlight) (segs : List Segment) : List Highlight :=
  llm.foldl addOne (ruleHighlights cfg segs scored)

/-- The shared duration of two highlights
(`max(0, overlap_end - overlap_start)` in `_filter_highlights`). -/
def overlapAmt (a b : Highlight) : ℚ :=
  max 0 (min a.end_time b.end_time - max a.start_time b.start_time)

/-- The rejection test of `_filter_highlights`: the shared duration of
the candidate `b` with the accepted entry `a`, divided by the duration
of the candidate `b` itself, exceeds 0.5. -/
def badPair (a b : Highlight) : Bool :=
  decide ((1 : ℚ)/2 < overlapAmt a b / (b.end_time - b.start_time))

/-- The greedy acceptance walk of `_filter_highlights`: a candidate is
kept only when no already-accepted entry triggers `badPair`. -/
def greedyAccept (acc : List Highlight) : List Highlight → List Highlight
  | [] => acc
  | h :: t =>
    if acc.any (fun e => badPair e h) then greedyAccept acc t
    else greedyAccept (acc ++ [h]) t

/-- The sort order of `_filter_highlights`
(`sort(key=confidence, reverse=True)`, stable). -/
def confPick (a b : Highlight) : Bool :=
  decide (b.confidence ≤ a.confidence)

/-- `ContentAnalyzer._filter_highlights`: stable sort by confidence
descending, greedy overlap filter, keep the first 5, drop entries below
confidence 0.3. -/
def filter_highlights (l : List Highlight) : List Highlight :=
  ((greedyAccept [] (stableSortBy confPick l)).take 5).filter
    (fun h => decide ((3 : ℚ)/10 ≤ h.confidence))

/-- The title-template banks of `_generate_title`, selected by emotion
membership. -/
def titleTemplates (emotions : List String) : List String :=
  if "funny" ∈ emotions then
    ["This Will Make You Laugh", "Hilarious Moment", "Comedy Gold",
     "You Won\x27t Stop Laughing"]
  else if "shocking" ∈ emotions then
    ["You Won\x27t Believe This", "Shocking Truth Revealed",
     "Mind-Blowing Moment", "This Changes Everything"]
  else if "inspirational" ∈ emotions then
    ["This Will Inspire You", "Motivational Moment",
     "Life-Changing Advice", "Inspiring Truth"]
  else
    ["Viral Moment", "Must-See Clip", "Trending Now", "Watch This"]

/-- `ContentAnalyzer._generate_title`: first boost keyword found in the
text yields a templated title; else a short leading question is
title-cased; else the oracle `choose` picks from the emotion's template
bank (`random.choice`). -/
def generate_title (choose : List String → String) (boost : List String)
    (text : String) (emotions : List String) : String :=
  let templates := titleTemplates emotions
  match boost.find? (fun k => occursIn (lowerStr k) (lowerStr text)) with
  | some k => "The " ++ titleStr k ++ " Secret"
  | none =>
    if occursIn "?" text then
      let qidx := text.data.findIdx (· == '?')
      if 0 < qidx then
        let q := stripStr (String.mk (text.data.take (qidx + 1)))
        if (wordsOf q).length ≤ 8 then titleStr q else choose templates
      else choose templates
    else choose templates

/-- `ContentAnalyzer._generate_description`: strip, truncate to 147
characters plus an ellipsis when longer than 150, append the source
video's title when present. -/
def generate_description (text : String) (meta : VideoMeta) : String :=
  let d := stripStr text
  let d := if 150 < d.data.length then String.mk (d.data.take 147) ++ "..."
           else d
  if meta.title ≠ "" then d ++ "\n\nFrom: " ++ meta.title else d

/-- The emotion-tag banks of `_generate_hashtags`, in dict order. -/
def emotionTagTable : List (String × List String) :=
  [("funny", ["#comedy", "#humor", "#laugh"]),
   ("shocking", ["#mindblown", "#incredible", "#wow"]),
   ("inspirational", ["#motivation", "#inspiration", "#success"]),
   ("educational", ["#learning", "#facts", "#knowledge"]),
   ("controversial", ["#debate", "#opinion", "#discussion"])]

/-- The topic-keyword table of `_generate_hashtags`, in dict order. -/
def topicKeywordTable : List (String × String) :=
  [("business", "#business"), ("money", "#money"), ("success", "#success"),
   ("health", "#health"), ("fitness", "#fitness"), ("food", "#food"),
   ("technology", "#tech"), ("ai", "#ai"), ("science", "#science"),
   ("travel", "#travel"), ("lifestyle", "#lifestyle"), ("tips", "#tips")]

/-- The three base hashtags always included first. -/
def baseTags : List String := ["#viral", "#trending", "#fyp"]

/-- The generic padding hashtags. -/
def genericTags : List String :=
  ["#content", "#video", "#shorts", "#reels", "#tiktok"]

/-- The padding loop of `_generate_hashtags`: walk the generic tags,
appending each tag not yet present while the list is below
`minCount`. -/
def padGenerics (minCount : ℕ) : List String → List String → List String
  | acc, [] => acc
  | acc, g :: gs =>
    if g ∉ acc ∧ acc.length < minCount then
      padGenerics minCount (acc ++ [g]) gs
    else padGenerics minCount acc gs

/-- `ContentAnalyzer._generate_hashtags`: base tags, emotion banks,
topic scan, order-preserving dedup, then truncate above `maxCount` or
pad below `minCount`. -/
def generate_hashtags (minCount maxCount : ℕ) (text : String)
    (emotions : List String) : List String :=
  let tl := lowerStr text
  let tags := dedupGo []
    (baseTags
      ++ (emotions.map (fun e => (emotionTagTable.lookup e).getD [])).flatten
      ++ topicKeywordTable.filterMap
        (fun p => if occursIn p.1 tl then some p.2 else none))
  if maxCount < tags.length then tags.take maxCount
  else if tags.length < minCount then padGenerics minCount tags genericTags
  else tags

/-- `ContentAnalyzer._get_primary_emotion`: fixed priority order, else
the first detected emotion, else `neutral`. -/
def get_primary_emotion (emotions : List String) : String :=
  if emotions.isEmpty then "neutral"
  else if "funny" ∈ emotions then "funny"
  else if "shocking" ∈ emotions then "shocking"
  else if "inspirational" ∈ emotions then "inspirational"
  else if "controversial" ∈ emotions then "controversial"
  else if "educational" ∈ emotions then "educational"
  else emotions.headD "neutral"

/-- A final highlight (`_enrich_highlights` copies the incoming dict and
adds the presentation fields). -/
structure EnrichedHighlight where
  start_time : ℚ
  end_time : ℚ
  text : String
  confidence : ℚ
  emotions : List String
  source : Source
  title : String
  description : String
  hashtags : List String
  emotion : String
  engagement_score : ℚ
  clip_number : ℕ

/-- One iteration of `_enrich_highlights` (its `try` body never fails in
this model, so the templated-fallback branch is unreachable). -/
def enrichOne (cfg : Config) (choose : List String → String)
    (meta : VideoMeta) (i : ℕ) (h : Highlight) : EnrichedHighlight :=
  { start_time := h.start_time, end_time := h.end_time, text := h.text,
    confidence := h.confidence, emotions := h.emotions, source := h.source,
    title := generate_title choose cfg.keywords_boost h.text h.emotions,
    description := generate_description h.text meta,
    hashtags := generate_hashtags cfg.hashtag_min cfg.hashtag_max h.text h.emotions,
    emotion := get_primary_emotion h.emotions,
    engagement_score := h.confidence,
    clip_number := i + 1 }

/-- `ContentAnalyzer._enrich_highlights`. -/
def enrich_highlights (cfg : Config) (choose : List String → String)
    (meta : VideoMeta) (hs : List Highlight) : List EnrichedHighlight :=
  hs.mapIdx (enrichOne cfg choose meta)

/-- `ContentAnalyzer.find_highlights`: the whole pipeline.  With no
transcript segments the result is the empty list; otherwise score,
analyze, combine, filter and enrich.  Every fallible collaborator call
is caught inside the pipeline (an erroring `gen` outcome yields an empty
chunk result), so the surrounding `try/except` never propagates an
exception: the function is total for every oracle. -/
def find_highlights (cfg : Config) (modelLoaded : Bool)
    (gen : ℕ → Except Unit (Option (List RawHighlight)))
    (choose : List String → String) (transcript : Transcript)
    (meta : VideoMeta) : List EnrichedHighlight :=
  if transcript.segments.isEmpty then []
  else
    enrich_highlights cfg choose meta
      (filter_highlights
        (combine_analyses cfg
          (score_segments cfg.emotion_weights cfg.keywords_boost
            transcript.segments)
          (analyze_content cfg modelLoaded gen transcript.segments)
          transcript.segments))

/-- Membership in a `stableInsert` result. -/
theorem stableInsert_mem {α : Type} (le : α → α → Bool) (h x : α) :
    ∀ l : List α, x ∈ stableInsert le h l ↔ x = h ∨ x ∈ l := by
  intro l
  induction l with
  | nil => simp [stableInsert]
  | cons a t ih =>
    rw [stableInsert]
    by_cases hc : le h a = true
    · rw [if_pos hc]
      simp [List.mem_cons]
    · rw [if_neg hc]
      simp only [List.mem_cons, ih]
      tauto

/-- Inserting into a list sorted for a total transitive order keeps it
sorted. -/
theorem stableInsert_pairwise {α : Type} (le : α → α → Bool)
    (htot : ∀ a b, le a b = true ∨ le b a = true)
    (htrans : ∀ a b c, le a b = true → le b c = true → le a c = true)
    (h : α) : ∀ l : List α, l.Pairwise (fun a b => le a b = true) →
    (stableInsert le h l).Pairwise (fun a b => le a b = true) := by
  intro l
  induction l with
  | nil => intro _; simp [stableInsert]
  | cons a t ih =>
    intro hp
    rw [List.pairwise_cons] at hp
    by_cases hc : le h a = true
    · rw [stableInsert, if_pos hc, List.pairwise_cons]
      refine ⟨?_, List.pairwise_cons.mpr hp⟩
      intro b hb
      rcases List.mem_cons.mp hb with hb | hb
      · exact hb ▸ hc
      · exact htrans h a b hc (hp.1 b hb)
    · rw [stableInsert, if_neg hc, List.pairwise_cons]
      refine ⟨?_, ih hp.2⟩
      intro b hb
      rcases (stableInsert_mem le h b t).mp hb with hb | hb
      · subst hb
        rcases htot a b with ha | ha
        · exact ha
        · exact absurd ha hc
      · exact hp.1 b hb

/-- `stableSortBy` output is sorted for a total transitive order. -/
theorem stableSortBy_pairwise {α : Type} (le : α → α → Bool)
    (htot : ∀ a b, le a b = true ∨ le b a = true)
    (htrans : ∀ a b c, le a b = true → le b c = true → le a c = true) :
    ∀ l : List α, (stableSortBy le l).Pairwise (fun a b => le a b = true) := by
  intro l
  induction l with
  | nil => simp [stableSortBy]
  | cons a t ih => exact stableInsert_pairwise le htot htrans a _ ih

/-- Sorting an already-sorted list is the identity. -/
theorem stableSortBy_eq_self {α : Type} (le : α → α → Bool) :
    ∀ l : List α, l.Pairwise (fun a b => le a b = true) →
    stableSortBy le l = l := by
  intro l
  induction l with
  | nil => simp [stableSortBy]
  | cons a t ih =>
    intro hp
    rw [List.pairwise_cons] at hp
    rw [stableSortBy, ih hp.2]
    cases t with
    | nil => rfl
    | cons b u => rw [stableInsert, if_pos (hp.1 b (List.mem_cons_self b u))]

/-- The greedy walk only reorders nothing: its output is a sublist of
`acc ++ input`. -/
theorem greedyAccept_sublist (acc : List Highlight) :
    ∀ l : List Highlight, (greedyAccept acc l).Sublist (acc ++ l) := by
  intro l
  induction l generalizing acc with
  | nil => simp [greedyAccept]
  | cons h t ih =>
    by_cases hc : acc.any (fun e => badPair e h) = true
    · rw [greedyAccept, if_pos hc]
      exact (ih acc).trans ((List.append_sublist_append_left acc).mpr
        (List.sublist_cons_self h t))
    · rw [greedyAccept, if_neg hc]
      simpa using ih (acc ++ [h])

/-- Every pair accepted by the greedy walk passed the overlap test. -/
theorem greedyAccept_pairwise (acc : List Highlight)
    (hacc : acc.Pairwise (fun a b => badPair a b = false)) :
    ∀ l : List Highlight,
    (greedyAccept acc l).Pairwise (fun a b => badPair a b = false) := by
  intro l
  induction l generalizing acc with
  | nil => simpa [greedyAccept] using hacc
  | cons h t ih =>
    by_cases hc : acc.any (fun e => badPair e h) = true
    · rw [greedyAccept, if_pos hc]; exact ih acc hacc
    · rw [greedyAccept, if_neg hc]
      refine ih (acc ++ [h]) ?_
      rw [List.pairwise_append]
      refine ⟨hacc, List.pairwise_singleton _ _, ?_⟩
      intro a ha b hb
      rw [List.mem_singleton] at hb
      subst hb
      have hfa := List.any_eq_false.mp (by simpa using hc) a ha
      simpa using hfa

/-- On an input whose pairs all pass the overlap test, the greedy walk
keeps everything. -/
theorem greedyAccept_eq_append (acc : List Highlight) :
    ∀ l : List Highlight, l.Pairwise (fun a b => badPair a b = false) →
    (∀ a ∈ acc, ∀ b ∈ l, badPair a b = false) →
    greedyAccept acc l = acc ++ l := by
  intro l
  induction l generalizing acc with
  | nil => simp [greedyAccept]
  | cons h t ih =>
    intro hp hab
    rw [List.pairwise_cons] at hp
    have hc : acc.any (fun e => badPair e h) = false := by
      rw [List.any_eq_false]
      intro a ha
      simp [hab a ha h (List.mem_cons_self h t)]
    have step := ih (acc ++ [h]) hp.2 (by
      intro a ha b hb
      rcases List.mem_append.mp ha with ha | ha
      · exact hab a ha b (List.mem_cons_of_mem h hb)
      · rw [List.mem_singleton] at ha
        subst ha
        exact hp.1 b hb)
    rw [greedyAccept, if_neg (by simp [hc]), step]
    simp

/-- The confidence order used by `_filter_highlights` is total. -/
theorem confPick_total (a b : Highlight) :
    confPick a b = true ∨ confPick b a = true := by
  simp only [confPick, decide_eq_true_eq]
  exact le_total b.confidence a.confidence

/-- The confidence order used by `_filter_highlights` is transitive. -/
theorem confPick_trans (a b c : Highlight) :
    confPick a b = true → confPick b c = true → confPick a c = true := by
  simp only [confPick, decide_eq_true_eq]
  intro h1 h2
  exact h2.trans h1

/-- Every ordered pair of the filter output passed the overlap test. -/
theorem filter_highlights_pairwise_bad (l : List Highlight) :
    (filter_highlights l).Pairwise (fun a b => badPair a b = false) := by
  have h1 := greedyAccept_pairwise [] List.Pairwise.nil (stableSortBy confPick l)
  exact List.Pairwise.sublist
    ((List.filter_sublist _).trans (List.take_sublist _ _)) h1

/-- The filter output is sorted by confidence descending. -/
theorem filter_highlights_pairwise_conf (l : List Highlight) :
    (filter_highlights l).Pairwise (fun a b => confPick a b = true) := by
  have hs := stableSortBy_pairwise confPick confPick_total confPick_trans l
  have h2 : (greedyAccept [] (stableSortBy confPick l)).Sublist
      (stableSortBy confPick l) := by
    simpa using greedyAccept_sublist [] (stableSortBy confPick l)
  exact List.Pairwise.sublist
    (((List.filter_sublist _).trans (List.take_sublist _ _)).trans h2) hs

/-- The filter output has at most 5 entries. -/
theorem filter_highlights_length_le (l : List Highlight) :
    (filter_highlights l).length ≤ 5 := by
  refine le_trans (List.Sublist.length_le (List.filter_sublist _)) ?_
  rw [List.length_take]
  exact min_le_left _ _

/-- Every entry of the filter output clears the 0.3 confidence floor. -/
theorem filter_highlights_mem_conf (l : List Highlight) :
    ∀ h ∈ filter_highlights l, (3 : ℚ)/10 ≤ h.confidence := by
  intro h hm
  have := List.of_mem_filter hm
  simpa using this

/-- With no matching entry, the merge scan returns nothing. -/
theorem mergeOne_none (c : LLMHighlight) :
    ∀ L : List Highlight, (∀ e ∈ L, matchesMoment c e = false) →
    mergeOne c L = none := by
  intro L
  induction L with
  | nil => intro _; rfl
  | cons e rest ih =>
    intro h
    rw [mergeOne, if_neg (by simp [h e (List.mem_cons_self e rest)]),
      ih (fun x hx => h x (List.mem_cons_of_mem e hx))]
    rfl

/-- The merge scan stops at the first matching entry and rewrites only
it. -/
theorem mergeOne_first (c : LLMHighlight) (e : Highlight) (L₂ : List Highlight) :
    ∀ L₁ : List Highlight, (∀ x ∈ L₁, matchesMoment c x = false) →
    matchesMoment c e = true →
    mergeOne c (L₁ ++ e :: L₂) =
      some (L₁ ++ (if e.confidence < c.confidence then updateEntry e c else e) :: L₂) := by
  intro L₁
  induction L₁ with
  | nil =>
    intro _ he
    rw [List.nil_append, mergeOne, if_pos he, List.nil_append]
  | cons x t ih =>
    intro h he
    rw [List.cons_append, mergeOne,
      if_neg (by simp [h x (List.mem_cons_self x t)]),
      ih (fun y hy => h y (List.mem_cons_of_mem x hy)) he]
    rfl

/-- The forward-extension loop never leaves the segment range. -/
theorem extendFwd_lt (segs : List Segment) (minD : ℚ) (si : ℕ) :
    ∀ fuel ei total, ei < segs.length →
    (extendFwd segs minD si fuel ei total).1 < segs.length := by
  intro fuel
  induction fuel with
  | zero => intro ei total h; exact h
  | succ n ih =>
    intro ei total h
    rw [extendFwd]
    by_cases hc : ei + 1 < segs.length ∧ total < minD
    · rw [if_pos hc]; exact ih _ _ hc.1
    · rw [if_neg hc]; exact h

/-- The forward-extension loop only moves the end index forward. -/
theorem extendFwd_ge (segs : List Segment) (minD : ℚ) (si : ℕ) :
    ∀ fuel ei total, ei ≤ (extendFwd segs minD si fuel ei total).1 := by
  intro fuel
  induction fuel with
  | zero => intro ei total; exact le_refl ei
  | succ n ih =>
    intro ei total
    rw [extendFwd]
    by_cases hc : ei + 1 < segs.length ∧ total < minD
    · rw [if_pos hc]
      exact le_trans (Nat.le_succ ei) (ih _ _)
    · rw [if_neg hc]

/-- The backward-extension loop only moves the start index back. -/
theorem extendBwd_le (segs : List Segment) (minD : ℚ) (ei : ℕ) :
    ∀ fuel si total, (extendBwd segs minD ei fuel si total).1 ≤ si := by
  intro fuel
  induction fuel with
  | zero => intro si total; exact le_refl si
  | succ n ih =>
    intro si total
    rw [extendBwd]
    by_cases hc : 0 < si ∧ total < minD
    · rw [if_pos hc]
      exact le_trans (ih _ _) (Nat.sub_le si 1)
    · rw [if_neg hc]

/-- The trimming loop never moves the end index below the start index. -/
theorem trimEnd_ge (segs : List Segment) (maxD : ℚ) (si : ℕ) :
    ∀ fuel ei total, si ≤ ei → si ≤ (trimEnd segs maxD si fuel ei total).1 := by
  intro fuel
  induction fuel with
  | zero => intro ei total h; exact h
  | succ n ih =>
    intro ei total h
    rw [trimEnd]
    by_cases hc : maxD < total ∧ si < ei
    · rw [if_pos hc]
      exact ih _ _ (Nat.le_sub_one_of_lt hc.2)
    · rw [if_neg hc]; exact h

/-- The trimming loop only moves the end index back. -/
theorem trimEnd_le (segs : List Segment) (maxD : ℚ) (si : ℕ) :
    ∀ fuel ei total, (trimEnd segs maxD si fuel ei total).1 ≤ ei := by
  intro fuel
  induction fuel with
  | zero => intro ei total; exact le_refl ei
  | succ n ih =>
    intro ei total
    rw [trimEnd]
    by_cases hc : maxD < total ∧ si < ei
    · rw [if_pos hc]
      exact le_trans (ih _ _) (Nat.sub_le ei 1)
    · rw [if_neg hc]

/-- With no keyword occurring, the emotion fold leaves its accumulator
untouched. -/
theorem foldl_emotionStep_zero (weights : String → ℚ) (text : String) :
    ∀ (tbl : List (String × List String)) (init : ℚ × List String),
    (∀ p ∈ tbl, ∀ kw ∈ p.2, occursIn kw text = false) →
    tbl.foldl (emotionStep weights text) init = init := by
  intro tbl
  induction tbl with
  | nil => intro init _; rfl
  | cons p t ih =>
    intro init h
    rw [List.foldl_cons]
    have hc : p.2.countP (fun kw => occursIn kw text) = 0 :=
      List.countP_eq_zero.mpr
        (by intro kw hkw; simp [h p (List.mem_cons_self p t) kw hkw])
    have hstep : emotionStep weights text init p = init := by
      rw [emotionStep]
      simp [hc]
    rw [hstep]
    exact ih init (fun q hq => h q (List.mem_cons_of_mem p hq))

/-- A `mapIdx` whose function always returns the empty list flattens to
the empty list. -/
theorem mapIdx_flatten_nil {α β : Type} :
    ∀ (l : List α) (f : ℕ → α → List β), (∀ i x, f i x = []) →
    (List.mapIdx f l).flatten = [] := by
  intro l
  induction l with
  | nil => intro f _; rfl
  | cons a t ih =>
    intro f h
    rw [List.mapIdx_cons, List.flatten_cons, h 0 a,
      ih (fun i => f (i + 1)) (fun i x => h (i + 1) x)]
    rfl

/-- A string obtained by joining around a space is never empty. -/
theorem append_space_ne_empty (a b : String) : a ++ " " ++ b ≠ "" := by
  intro h
  have h1 := congrArg String.length h
  rw [String.length_append, String.length_append] at h1
  have h2 : (" " : String).length = 1 := by decide
  have h3 : ("" : String).length = 0 := by decide
  omega

/-- The chunking recursion distributes the segments: every chunk's
segment list concatenates back to the state's segments followed by the
remaining input. -/
theorem splitGo_join : ∀ (rest : List Segment) (cur : Chunk),
    (cur.text = "" → cur.segments = []) →
    ((splitGo cur rest).map Chunk.segments).flatten = cur.segments ++ rest := by
  intro rest
  induction rest with
  | nil =>
    intro cur h
    by_cases hc : cur.text = ""
    · rw [splitGo, if_pos hc, h hc]
      rfl
    · rw [splitGo, if_neg hc]
      simp
  | cons seg rest ih =>
    intro cur h
    rw [splitGo]
    by_cases hc : 1000 < (cur.text ++ seg.text).length ∧ cur.text ≠ ""
    · rw [if_pos hc]
      simp only [List.map_cons, List.flatten_cons]
      rw [ih _ (fun he => absurd he (append_space_ne_empty _ _))]
      simp
    · rw [if_neg hc,
        ih _ (fun he => absurd he (append_space_ne_empty _ _))]
      simp

/-- An order-preserving dedup result is a sublist of its input. -/
theorem dedupGo_sublist : ∀ (l seen : List String), (dedupGo seen l).Sublist l := by
  intro l
  induction l with
  | nil => intro seen; exact List.Sublist.refl []
  | cons a t ih =>
    intro seen
    rw [dedupGo]
    by_cases hc : a ∈ seen
    · rw [if_pos hc]
      exact (ih seen).trans (List.sublist_cons_self a t)
    · rw [if_neg hc]
      exact List.Sublist.cons₂ a (ih (seen ++ [a]))

/-- The dedup never emits an element it has already seen. -/
theorem dedupGo_not_mem_seen : ∀ (l seen : List String) (x : String),
    x ∈ dedupGo seen l → x ∉ seen := by
  intro l
  induction l with
  | nil => intro seen x hx; exact absurd hx (List.not_mem_nil x)
  | cons a t ih =>
    intro seen x hx
    rw [dedupGo] at hx
    by_cases hc : a ∈ seen
    · rw [if_pos hc] at hx
      exact ih seen x hx
    · rw [if_neg hc] at hx
      rcases List.mem_cons.mp hx with hx | hx
      · subst hx; exact hc
      · intro hxs
        exact ih (seen ++ [a]) x hx (List.mem_append_left [a] hxs)

/-- The dedup output has no duplicates. -/
theorem dedupGo_nodup : ∀ (l seen : List String), (dedupGo seen l).Nodup := by
  intro l
  induction l with
  | nil => intro seen; exact List.nodup_nil
  | cons a t ih =>
    intro seen
    rw [dedupGo]
    by_cases hc : a ∈ seen
    · rw [if_pos hc]; exact ih seen
    · rw [if_neg hc]
      rw [List.nodup_cons]
      refine ⟨?_, ih (seen ++ [a])⟩
      intro ha
      exact dedupGo_not_mem_seen t (seen ++ [a]) a ha
        (List.mem_append_right seen (List.mem_singleton.mpr rfl))

/-- The padding loop introduces no duplicates. -/
theorem padGenerics_nodup (m : ℕ) :
    ∀ (gs acc : List String), acc.Nodup → (padGenerics m acc gs).Nodup := by
  intro gs
  induction gs with
  | nil => intro acc h; exact h
  | cons g t ih =>
    intro acc h
    rw [padGenerics]
    by_cases hc : g ∉ acc ∧ acc.length < m
    · rw [if_pos hc]
      refine ih (acc ++ [g]) ?_
      rw [List.nodup_append]
      exact ⟨h, List.nodup_singleton g,
        by intro x hx hg; rw [List.mem_singleton] at hg; subst hg; exact hc.1 hx⟩
    · rw [if_neg hc]; exact ih acc h

/-- The padding loop never shrinks the list. -/
theorem padGenerics_length_mono (m : ℕ) :
    ∀ (gs acc : List String), acc.length ≤ (padGenerics m acc gs).length := by
  intro gs
  induction gs with
  | nil => intro acc; exact le_refl _
  | cons g t ih =>
    intro acc
    rw [padGenerics]
    by_cases hc : g ∉ acc ∧ acc.length < m
    · rw [if_pos hc]
      refine le_trans ?_ (ih (acc ++ [g]))
      rw [List.length_append]
      omega
    · rw [if_neg hc]; exact ih acc

/-- With enough fresh generic tags available, the padding loop reaches
the minimum count. -/
theorem padGenerics_length_ge (m : ℕ) :
    ∀ (gs acc : List String), gs.Nodup → (∀ g ∈ gs, g ∉ acc) →
    min m (acc.length + gs.length) ≤ (padGenerics m acc gs).length := by
  intro gs
  induction gs with
  | nil =>
    intro acc _ _
    rw [padGenerics]
    simp
  | cons g t ih =>
    intro acc hnd hfr
    rw [List.nodup_cons] at hnd
    rw [padGenerics]
    by_cases hlen : acc.length < m
    · rw [if_pos ⟨hfr g (List.mem_cons_self g t), hlen⟩]
      have := ih (acc ++ [g]) hnd.2 (by
        intro x hx
        rw [List.mem_append, List.mem_singleton]
        push_neg
        exact ⟨hfr x (List.mem_cons_of_mem g hx),
          fun he => hnd.1 (he ▸ hx)⟩)
      rw [List.length_append] at this
      simp only [List.length_singleton] at this
      refine le_trans ?_ this
      apply min_le_min (le_refl m)
      rw [List.length_cons]
      omega
    · rw [if_neg (by tauto)]
      refine le_trans ?_ (padGenerics_length_mono m t acc)
      have : m ≤ acc.length := not_lt.mp hlen
      exact le_trans (min_le_left _ _) this

/-- The padding loop stops at the minimum count. -/
theorem padGenerics_length_le (m : ℕ) :
    ∀ (gs acc : List String), (padGenerics m acc gs).length ≤ max acc.length m := by
  intro gs
  induction gs with
  | nil => intro acc; rw [padGenerics]; exact le_max_left _ _
  | cons g t ih =>
    intro acc
    rw [padGenerics]
    by_cases hc : g ∉ acc ∧ acc.length < m
    · rw [if_pos hc]
      refine le_trans (ih (acc ++ [g])) ?_
      rw [List.length_append]
      simp only [List.length_singleton]
      omega
    · rw [if_neg hc]; exact ih acc

/-- A successful association-list lookup returns one of the stored
values. -/
theorem lookup_mem_values :
    ∀ (tbl : List (String × List String)) (k : String) (v : List String),
    tbl.lookup k = some v → v ∈ tbl.map Prod.snd := by
  intro tbl
  induction tbl with
  | nil => intro k v h; exact absurd h (by simp [List.lookup])
  | cons p t ih =>
    intro k v h
    rw [List.lookup] at h
    by_cases hc : (k == p.1) = true
    · rw [hc] at h
      rw [List.map_cons, ← Option.some_inj.mp h]
      exact List.mem_cons_self _ _
    · rw [Bool.not_eq_true] at hc
      rw [hc] at h
      exact List.mem_cons_of_mem _ (ih k v h)

/-- Claim C1 (amended): for every ordered pair (A, B) of highlights in
the `_filter_highlights` output, with B accepted after A, the shared
duration divided by the duration of B — the later-accepted,
lower-confidence entry, not the shorter of the two — is at most the 0.5
threshold. -/
theorem c1_filter_overlap_pairwise (l : List Highlight) :
    (filter_highlights l).Pairwise
      (fun a b => overlapAmt a b / (b.end_time - b.start_time) ≤ 1/2) := by
  refine (filter_highlights_pairwise_bad l).imp ?_
  intro a b hab
  have hb : ¬ ((1 : ℚ)/2 < overlapAmt a b / (b.end_time - b.start_time)) := by
    simpa [badPair] using hab
  exact not_lt.mp hb

/-- Claim C1 counterexample: two accepted highlights `[0,10]` (confidence
0.9) and `[0,30]` (confidence 0.8) both survive the filter, yet their
shared duration (10) divided by the shorter duration (10) is 1 > 0.5:
the code divides by the candidate's own duration (30), giving 1/3. -/
theorem c1_shorter_duration_cex :
    filter_highlights
        [⟨0, 10, "a", 9/10, [], Source.llm⟩, ⟨0, 30, "b", 4/5, [], Source.llm⟩]
      = [⟨0, 10, "a", 9/10, [], Source.llm⟩, ⟨0, 30, "b", 4/5, [], Source.llm⟩]
    ∧ (1 : ℚ)/2 <
        overlapAmt ⟨0, 10, "a", 9/10, [], Source.llm⟩
            ⟨0, 30, "b", 4/5, [], Source.llm⟩
          / min (((10 : ℚ)) - 0) (((30 : ℚ)) - 0) := by
  constructor
  · norm_num [filter_highlights, stableSortBy, stableInsert, confPick,
      greedyAccept, badPair, overlapAmt]
  · norm_num [overlapAmt]

/-- Claim C2 (amended): the rule-based window of `_combine_analyses`
aligns with original segment boundaries — its index window satisfies
`start_idx ≤ end_idx < len(segs)` and `start_idx ≤ seed index`, and the
emitted times are those boundary segments' times.  For the semantic
resolution of `_parse_llm_response`: a window already within
`[minD, maxD]` is unchanged; a window longer than `maxD` is trimmed to
exactly `maxD`; a window shorter than `minD` is grown to at most `minD`,
reaching exactly `minD` when the chunk bounds do not clamp the
symmetric extension (so the resolved duration may stay below `minD`,
and may exceed `maxD` on the rule side when a single segment is
over-long). -/
theorem c2_window_resolution (cfg : Config) (segs : List Segment)
    (s : ScoredSegment) (hseed : s.segment_index < segs.length) :
    ((ruleWindow cfg segs s).1 ≤ (ruleWindow cfg segs s).2
      ∧ (ruleWindow cfg segs s).2 < segs.length
      ∧ (ruleWindow cfg segs s).1 ≤ s.segment_index
      ∧ (convertRule cfg segs s).start_time
          = (segs.getD (ruleWindow cfg segs s).1 dSeg).start_time
      ∧ (convertRule cfg segs s).end_time
          = (segs.getD (ruleWindow cfg segs s).2 dSeg).end_time)
    ∧ ∀ cS cE a b minD maxD : ℚ,
        (minD ≤ b - a → b - a ≤ maxD →
          resolveSemanticWindow cS cE a b minD maxD = (a, b))
        ∧ (minD ≤ b - a → maxD < b - a →
            (resolveSemanticWindow cS cE a b minD maxD).2
              - (resolveSemanticWindow cS cE a b minD maxD).1 = maxD)
        ∧ (b - a < minD →
            (resolveSemanticWindow cS cE a b minD maxD).2
              - (resolveSemanticWindow cS cE a b minD maxD).1 ≤ minD
            ∧ (cS ≤ a - (minD - (b - a)) / 2 → b + (minD - (b - a)) / 2 ≤ cE →
                (resolveSemanticWindow cS cE a b minD maxD).2
                  - (resolveSemanticWindow cS cE a b minD maxD).1 = minD)) := by
  constructor
  · have hfwd_lt := extendFwd_lt segs cfg.clip_duration_min s.segment_index
      segs.length s.segment_index s.duration hseed
    have hfwd_ge := extendFwd_ge segs cfg.clip_duration_min s.segment_index
      segs.length s.segment_index s.duration
    have hbwd := extendBwd_le segs cfg.clip_duration_min
      (extendFwd segs cfg.clip_duration_min s.segment_index segs.length
        s.segment_index s.duration).1
      s.segment_index s.segment_index
      (extendFwd segs cfg.clip_duration_min s.segment_index segs.length
        s.segment_index s.duration).2
    refine ⟨?_, ?_, ?_, rfl, rfl⟩
    · exact trimEnd_ge segs cfg.clip_duration_max _ _ _ _
        (le_trans hbwd hfwd_ge)
    · exact lt_of_le_of_lt (trimEnd_le segs cfg.clip_duration_max _ _ _ _) hfwd_lt
    · exact hbwd
  · intro cS cE a b minD maxD
    refine ⟨?_, ?_, ?_⟩
    · intro h1 h2
      rw [resolveSemanticWindow]
      rw [if_neg (not_lt.mpr h1), if_neg (not_lt.mpr h2)]
    · intro h1 h2
      rw [resolveSemanticWindow, if_neg (not_lt.mpr h1), if_pos h2]
      ring
    · intro h1
      rw [resolveSemanticWindow, if_pos h1]
      constructor
      · have ha : a - (minD - (b - a)) / 2 ≤ max cS (a - (minD - (b - a)) / 2) :=
          le_max_right _ _
        have hb : min cE (b + (minD - (b - a)) / 2) ≤ b + (minD - (b - a)) / 2 :=
          min_le_right _ _
        simp only
        linarith
      · intro hcs hce
        simp only
        rw [max_eq_right hcs, min_eq_right hce]
        ring

/-- Claim C2 witness: a 10-second window `[40,50]` inside chunk `[0,100]`
with bounds 25/65 is short, the chunk does not clamp the symmetric
extension, and the resolved duration is exactly 25. -/
theorem c2_window_resolution_w :
    (⟨0, 0, 100, "wow", 3, [], 100⟩ : ScoredSegment).segment_index
        < ([⟨0, 100, "wow"⟩] : List Segment).length
    ∧ ((50 : ℚ) - 40 < 25)
    ∧ (resolveSemanticWindow 0 100 40 50 25 65).2
        - (resolveSemanticWindow 0 100 40 50 25 65).1 = 25 := by
  have hseed : (⟨0, 0, 100, "wow", 3, [], 100⟩ : ScoredSegment).segment_index
      < ([⟨0, 100, "wow"⟩] : List Segment).length := by
    simp
  refine ⟨hseed, by norm_num, ?_⟩
  have h := ((c2_window_resolution defaultConfig [⟨0, 100, "wow"⟩]
      ⟨0, 0, 100, "wow", 3, [], 100⟩ hseed).2 0 100 40 50 25 65).2.2
      (by norm_num)
  exact h.2 (by norm_num) (by norm_num)

/-- Claim C2 counterexample: a single 100-second segment scoring 3 is
converted by `_combine_analyses` (defaults: min 25, max 65) into a
highlight spanning the full 100 seconds — the trimming loop cannot act
because `end_idx = start_idx` — so the resolved duration exceeds
`maxClipDuration` even though the source span exceeds
`minClipDuration`, contradicting the claimed bound. -/
theorem c2_duration_bounds_cex :
    combine_analyses defaultConfig
        [⟨0, 0, 100, "wow", 3, ["shocking"], 100⟩] [] [⟨0, 100, "wow"⟩]
      = [⟨0, 100, "wow", 1, ["shocking"], Source.rule_based⟩]
    ∧ defaultConfig.clip_duration_max < (100 : ℚ) - 0
    ∧ defaultConfig.clip_duration_min ≤ (100 : ℚ) - 0 := by
  refine ⟨?_, by norm_num [defaultConfig], by norm_num [defaultConfig]⟩
  norm_num [combine_analyses, ruleHighlights, convertRule, ruleWindow,
    extendFwd, extendBwd, trimEnd, defaultConfig, joinSpace, dSeg]

/-- Claim C3: in the merge of `_combine_analyses`, a semantic (llm)
candidate matching no accepted entry (start-to-start and end-to-end
deltas all at least 10) is appended with `source = 'llm'` (the spec's
`semantic` tag); a candidate whose first match is `e` replaces `e`
exactly when its confidence is strictly higher, the surviving entry
carries the larger confidence, and a winning candidate's entry is marked
`source = 'combined'` with the candidate's window and text. -/
theorem c3_merge_semantic (L : List Highlight) (c : LLMHighlight) :
    ((∀ e ∈ L, matchesMoment c e = false) →
      addOne L c = L ++ [toHighlightLLM c] ∧ (toHighlightLLM c).source = Source.llm)
    ∧ ∀ L₁ (e : Highlight) L₂, L = L₁ ++ e :: L₂ →
        (∀ x ∈ L₁, matchesMoment c x = false) → matchesMoment c e = true →
        addOne L c =
          L₁ ++ (if e.confidence < c.confidence then updateEntry e c else e) :: L₂
        ∧ (if e.confidence < c.confidence then updateEntry e c else e).confidence
            = max c.confidence e.confidence
        ∧ (e.confidence < c.confidence →
            (updateEntry e c).source = Source.combined
            ∧ (updateEntry e c).start_time = c.start_time
            ∧ (updateEntry e c).end_time = c.end_time
            ∧ (updateEntry e c).text = c.text
            ∧ (updateEntry e c).confidence = c.confidence) := by
  constructor
  · intro h
    refine ⟨?_, rfl⟩
    rw [addOne, mergeOne_none c L h]
  · intro L₁ e L₂ hL h1 he
    subst hL
    refine ⟨?_, ?_, ?_⟩
    · rw [addOne, mergeOne_first c e L₂ L₁ h1 he]
    · by_cases hlt : e.confidence < c.confidence
      · rw [if_pos hlt]
        show c.confidence = max c.confidence e.confidence
        rw [max_eq_left hlt.le]
      · rw [if_neg hlt]
        rw [max_eq_right (not_lt.mp hlt)]
    · intro _
      exact ⟨rfl, rfl, rfl, rfl, rfl⟩

/-- Claim C3 witness: the spec's scenario — rule-based `[10,40]` at
confidence 0.5 against semantic `[12,42]` at confidence 0.8 (start delta
2 < 10) merges into one `combined` entry carrying the semantic
window. -/
theorem c3_merge_semantic_w :
    matchesMoment ⟨12, 42, "s", 4/5, "shocking", none, some "high"⟩
        ⟨10, 40, "r", 1/2, ["funny"], Source.rule_based⟩ = true
    ∧ addOne [⟨10, 40, "r", 1/2, ["funny"], Source.rule_based⟩]
        ⟨12, 42, "s", 4/5, "shocking", none, some "high"⟩
      = [⟨12, 42, "s", 4/5, ["funny"], Source.combined⟩] := by
  have hm : matchesMoment ⟨12, 42, "s", 4/5, "shocking", none, some "high"⟩
      ⟨10, 40, "r", 1/2, ["funny"], Source.rule_based⟩ = true := by
    norm_num [matchesMoment, abs]
  have h := (c3_merge_semantic [⟨10, 40, "r", 1/2, ["funny"], Source.rule_based⟩]
      ⟨12, 42, "s", 4/5, "shocking", none, some "high"⟩).2
      [] ⟨10, 40, "r", 1/2, ["funny"], Source.rule_based⟩ [] rfl
      (by intro x hx; exact absurd hx (List.not_mem_nil x)) hm
  refine ⟨hm, ?_⟩
  rw [h.1, if_pos (by norm_num), List.nil_append]
  rfl

/-- Claim C4 (amended): an unparseable response for a chunk yields zero
candidates for that chunk without raising (with every chunk unparseable
the analyzer output is empty); the rule-based fallback — bounded by 3
matches — is used when the model is not loaded, not on a parse
failure. -/
theorem c4_unparseable_amended (cfg : Config)
    (gen : ℕ → Except Unit (Option (List RawHighlight)))
    (segs : List Segment) :
    analyze_content cfg false gen segs = fallback_analysis segs
    ∧ ((∀ i, gen i = Except.ok none) →
        analyze_content cfg true gen segs = [])
    ∧ (fallback_analysis segs).length ≤ 3 := by
  refine ⟨rfl, ?_, ?_⟩
  · intro h
    rw [analyze_content, if_pos rfl,
      mapIdx_flatten_nil _ _ (by intro i c; rw [h i]; rfl)]
    rfl
  · rw [fallback_analysis]
    rw [List.length_take]
    exact min_le_left _ _

/-- Claim C4 witness: with every chunk response unparseable the analyzer
yields no candidates, and with the model unavailable it returns the
fallback analysis. -/
theorem c4_unparseable_w :
    analyze_content defaultConfig true (fun _ => Except.ok none)
        [⟨0, 5, "the best unbelievable story"⟩] = []
    ∧ analyze_content defaultConfig false (fun _ => Except.ok none)
        [⟨0, 5, "the best unbelievable story"⟩]
      = fallback_analysis [⟨0, 5, "the best unbelievable story"⟩] :=
  ⟨(c4_unparseable_amended defaultConfig (fun _ => Except.ok none)
      [⟨0, 5, "the best unbelievable story"⟩]).2.1 (fun _ => rfl),
   (c4_unparseable_amended defaultConfig (fun _ => Except.ok none)
      [⟨0, 5, "the best unbelievable story"⟩]).1⟩

/-- Claim C4 counterexample: with the model loaded and the single
chunk's response unparseable, the analyzer returns no candidates while
the rule-based fallback on the same segments is non-empty — the system
does not fall back to the heuristic analysis on a parse failure. -/
theorem c4_no_fallback_cex :
    analyze_content defaultConfig true (fun _ => Except.ok none)
        [⟨0, 5, "the best unbelievable story"⟩] = []
    ∧ fallback_analysis [⟨0, 5, "the best unbelievable story"⟩]
        = [⟨0, 5, "the best unbelievable story", 1/2, "shocking",
            some ["shocking"], none⟩]
    ∧ analyze_content defaultConfig true (fun _ => Except.ok none)
          [⟨0, 5, "the best unbelievable story"⟩]
        ≠ fallback_analysis [⟨0, 5, "the best unbelievable story"⟩] := by
  have h0 := mapIdx_flatten_nil
    (split_transcript [⟨0, 5, "the best unbelievable story"⟩])
    (fun i c => analyze_chunk (Except.ok none) c
      defaultConfig.clip_duration_min defaultConfig.clip_duration_max)
    (fun i c => rfl)
  have hana : analyze_content defaultConfig true (fun _ => Except.ok none)
      [⟨0, 5, "the best unbelievable story"⟩] = [] := by
    rw [analyze_content, if_pos rfl, h0]
    rfl
  have e4 : occursIn "?" "the best unbelievable story" = false := by decide
  have f1 : occursIn "unbelievable" (lowerStr "the best unbelievable story") = true := by decide
  have f2 : occursIn "incredible" (lowerStr "the best unbelievable story") = false := by decide
  have f3 : occursIn "amazing" (lowerStr "the best unbelievable story") = false := by decide
  have f4 : occursIn "wow" (lowerStr "the best unbelievable story") = false := by decide
  have f5 : occursIn "surprised" (lowerStr "the best unbelievable story") = false := by decide
  have f6 : occursIn "funny" (lowerStr "the best unbelievable story") = false := by decide
  have f7 : occursIn "hilarious" (lowerStr "the best unbelievable story") = false := by decide
  have f8 : occursIn "laugh" (lowerStr "the best unbelievable story") = false := by decide
  have f9 : occursIn "joke" (lowerStr "the best unbelievable story") = false := by decide
  have f10 : occursIn "comedy" (lowerStr "the best unbelievable story") = false := by decide
  have f11 : occursIn "inspiring" (lowerStr "the best unbelievable story") = false := by decide
  have f12 : occursIn "motivational" (lowerStr "the best unbelievable story") = false := by decide
  have f13 : occursIn "success" (lowerStr "the best unbelievable story") = false := by decide
  have f14 : occursIn "achievement" (lowerStr "the best unbelievable story") = false := by decide
  have f15 : occursIn "i " (lowerStr "the best unbelievable story") = false := by decide
  have f16 : occursIn "my " (lowerStr "the best unbelievable story") = false := by decide
  have f17 : occursIn "me " (lowerStr "the best unbelievable story") = false := by decide
  have f18 : occursIn "best" (lowerStr "the best unbelievable story") = true := by decide
  have f19 : occursIn "worst" (lowerStr "the best unbelievable story") = false := by decide
  have f20 : occursIn "biggest" (lowerStr "the best unbelievable story") = false := by decide
  have f21 : occursIn "smallest" (lowerStr "the best unbelievable story") = false := by decide
  have f22 : occursIn "most" (lowerStr "the best unbelievable story") = false := by decide
  have f23 : occursIn "least" (lowerStr "the best unbelievable story") = false := by decide
  have hfb : fallback_analysis [⟨0, 5, "the best unbelievable story"⟩]
      = [⟨0, 5, "the best unbelievable story", 1/2, "shocking",
          some ["shocking"], none⟩] := by
    norm_num [fallback_analysis, fallbackBuild, fallbackScore,
      fallbackEmotionTable, e4, f1, f2, f3, f4, f5, f6, f7, f8, f9, f10, f11, f12, f13, f14, f15, f16, f17, f18, f19, f20, f21, f22, f23, List.mapIdx_cons,
      List.reduceOption, joinSpace, dSeg]
    simp
  refine ⟨hana, hfb, ?_⟩
  rw [hana, hfb]
  simp

/-- Claim C5: `_filter_highlights` is idempotent — applied to its own
output it returns that output unchanged, same elements in the same
order. -/
theorem c5_filter_idempotent (l : List Highlight) :
    filter_highlights (filter_highlights l) = filter_highlights l := by
  have hconf := filter_highlights_pairwise_conf l
  have hbad := filter_highlights_pairwise_bad l
  have hlen := filter_highlights_length_le l
  have hmem := filter_highlights_mem_conf l
  generalize hF : filter_highlights l = F at hconf hbad hlen hmem ⊢
  show filter_highlights F = F
  unfold filter_highlights
  rw [stableSortBy_eq_self _ _ hconf,
    greedyAccept_eq_append [] _ hbad
      (by intro a ha; exact absurd ha (List.not_mem_nil a)),
    List.nil_append, List.take_of_length_le hlen,
    List.filter_eq_self.mpr (by intro a ha; simpa using hmem a ha)]

/-- Claim C6: in `_combine_analyses`, the rule-based conversion is
exactly a filter by `score ≥ min_engagement_score` followed by the
window conversion; every produced entry has `source = rule_based` and
confidence `min(score/3, 1)` for some admitted scored segment, and a
segment below the minimum produces nothing. -/
theorem c6_rule_conversion (cfg : Config) (segs : List Segment)
    (scored : List ScoredSegment) :
    ruleHighlights cfg segs scored
      = (scored.filter
          (fun s => decide (cfg.min_engagement_score ≤ s.score))).map
            (convertRule cfg segs)
    ∧ ∀ h ∈ ruleHighlights cfg segs scored,
        h.source = Source.rule_based
        ∧ ∃ s ∈ scored, cfg.min_engagement_score ≤ s.score
            ∧ h.confidence = min (s.score / 3) 1 := by
  have heq : ruleHighlights cfg segs scored
      = (scored.filter
          (fun s => decide (cfg.min_engagement_score ≤ s.score))).map
            (convertRule cfg segs) := by
    induction scored with
    | nil => rfl
    | cons s rest ih =>
      by_cases hs : cfg.min_engagement_score ≤ s.score
      · rw [ruleHighlights, if_pos hs, ih,
          List.filter_cons_of_pos (by simpa using hs), List.map_cons]
      · rw [ruleHighlights, if_neg hs, ih,
          List.filter_cons_of_neg (by simpa using hs)]
  refine ⟨heq, ?_⟩
  intro h hm
  rw [heq] at hm
  rcases List.mem_map.mp hm with ⟨s, hs, hconv⟩
  have hss := List.mem_filter.mp hs
  refine ⟨?_, s, hss.1, by simpa using hss.2, ?_⟩
  · rw [← hconv]; rfl
  · rw [← hconv]; rfl

/-- Claim C7 (amended): the hashtag list of `_generate_hashtags` has no
duplicates and the dedup stage preserves input order (its result is a
sublist of the constructed tag sequence); when the configured bounds
satisfy `minCount ≤ maxCount` and `minCount ≤ 8`, the final length lies
within `[minCount, maxCount]` (with a larger `minCount` the padding pool
of 3 base plus 5 generic tags can be exhausted below the minimum). -/
theorem c7_hashtags_amended (minC maxC : ℕ) (text : String)
    (emotions : List String) :
    (generate_hashtags minC maxC text emotions).Nodup
    ∧ (∀ l : List String, (dedupGo [] l).Sublist l)
    ∧ (minC ≤ maxC → minC ≤ 8 →
        minC ≤ (generate_hashtags minC maxC text emotions).length
        ∧ (generate_hashtags minC maxC text emotions).length ≤ maxC) := by
  set L := baseTags
    ++ (emotions.map (fun e => (emotionTagTable.lookup e).getD [])).flatten
    ++ topicKeywordTable.filterMap
        (fun p => if occursIn p.1 (lowerStr text) then some p.2 else none)
    with hL
  have hgen : generate_hashtags minC maxC text emotions
      = (if maxC < (dedupGo [] L).length then (dedupGo [] L).take maxC
         else if (dedupGo [] L).length < minC then
           padGenerics minC (dedupGo [] L) genericTags
         else dedupGo [] L) := rfl
  have hnd : (dedupGo [] L).Nodup := dedupGo_nodup L []
  have base_eq : ∀ r : List String, dedupGo [] (baseTags ++ r)
      = "#viral" :: "#trending" :: "#fyp" ::
          dedupGo ["#viral", "#trending", "#fyp"] r := by
    intro r
    simp [baseTags, dedupGo]
  have hlen3 : 3 ≤ (dedupGo [] L).length := by
    rw [hL, List.append_assoc, base_eq]
    simp only [List.length_cons]
    omega
  have hdis : ∀ g ∈ genericTags, ¬ g ∈ baseTags
      ∧ ¬ g ∈ (emotionTagTable.map Prod.snd).flatten
      ∧ ¬ g ∈ topicKeywordTable.map Prod.snd := by decide
  have hfresh : ∀ g ∈ genericTags, g ∉ dedupGo [] L := by
    intro g hg hmem
    have hxL : g ∈ L := (dedupGo_sublist L []).subset hmem
    rw [hL] at hxL
    rcases List.mem_append.mp hxL with hx | htopic
    · rcases List.mem_append.mp hx with hbase | hemo
      · exact (hdis g hg).1 hbase
      · rcases List.mem_flatten.mp hemo with ⟨v, hv, hgv⟩
        rcases List.mem_map.mp hv with ⟨e, _, hev⟩
        cases hlk : emotionTagTable.lookup e with
        | none =>
          rw [hlk] at hev
          simp only [Option.getD_none] at hev
          rw [← hev] at hgv
          exact absurd hgv (List.not_mem_nil g)
        | some v' =>
          rw [hlk] at hev
          simp only [Option.getD_some] at hev
          refine (hdis g hg).2.1 (List.mem_flatten.mpr ⟨v', ?_, hev ▸ hgv⟩)
          exact lookup_mem_values emotionTagTable e v' hlk
    · rcases List.mem_filterMap.mp htopic with ⟨p, _, hif⟩
      by_cases hc : occursIn p.1 (lowerStr text) = true
      · rw [if_pos hc] at hif
        refine (hdis g hg).2.2 ?_
        rw [← Option.some_inj.mp hif]
        exact List.mem_map_of_mem Prod.snd (by assumption)
      · rw [if_neg hc] at hif
        exact absurd hif (by simp)
  refine ⟨?_, fun l => dedupGo_sublist l [], ?_⟩
  · rw [hgen]
    by_cases hb1 : maxC < (dedupGo [] L).length
    · rw [if_pos hb1]
      exact List.Nodup.sublist (List.take_sublist _ _) hnd
    · rw [if_neg hb1]
      by_cases hb2 : (dedupGo [] L).length < minC
      · rw [if_pos hb2]
        exact padGenerics_nodup minC genericTags _ hnd
      · rw [if_neg hb2]; exact hnd
  · intro hmm h8
    rw [hgen]
    by_cases hb1 : maxC < (dedupGo [] L).length
    · rw [if_pos hb1, List.length_take]
      constructor
      · exact le_trans hmm (le_min (le_refl maxC) (le_of_lt hb1))
      · exact min_le_left _ _
    · rw [if_neg hb1]
      by_cases hb2 : (dedupGo [] L).length < minC
      · rw [if_pos hb2]
        constructor
        · have hge := padGenerics_length_ge minC genericTags (dedupGo [] L)
            (by decide) hfresh
          have h5 : genericTags.length = 5 := by decide
          rw [h5] at hge
          have : minC ≤ (dedupGo [] L).length + 5 := by omega
          rw [min_eq_left this] at hge
          exact hge
        · have hle := padGenerics_length_le minC genericTags (dedupGo [] L)
          have : max (dedupGo [] L).length minC = minC :=
            max_eq_right (le_of_lt hb2)
          rw [this] at hle
          exact le_trans hle hmm
      · rw [if_neg hb2]
        exact ⟨not_lt.mp hb2, not_lt.mp hb1⟩

/-- Claim C7 witness: with the default bounds (5, 10) and a text and
emotion list adding no tags, the output length lies within bounds and is
duplicate-free. -/
theorem c7_hashtags_w :
    (5 : ℕ) ≤ 10 ∧ (5 : ℕ) ≤ 8
    ∧ 5 ≤ (generate_hashtags 5 10 "zzz" []).length
    ∧ (generate_hashtags 5 10 "zzz" []).length ≤ 10
    ∧ (generate_hashtags 5 10 "zzz" []).Nodup := by
  have h := c7_hashtags_amended 5 10 "zzz" []
  have hb := h.2.2 (by decide) (by decide)
  exact ⟨by decide, by decide, hb.1, hb.2, h.1⟩

/-- Claim C7 counterexample: with `minCount = 9` and `maxCount = 20`
(9 ≤ 20), a text and emotion list adding no tags leave only the 3 base
tags plus the 5 generic pads, so the output length 8 falls below the
configured minimum. -/
theorem c7_min_count_cex :
    (generate_hashtags 9 20 "zzz" []).length = 8 ∧ (8 : ℕ) < 9
    ∧ (9 : ℕ) ≤ 20 := by
  refine ⟨?_, by decide, by decide⟩
  decide

/-- Claim C8: `find_highlights` with no transcript segments returns the
empty list.  The function is total for every oracle outcome — including
a `model.generate` call that always raises — modelling that no internal
failure propagates to the caller. -/
theorem c8_empty_transcript (cfg : Config) (modelLoaded : Bool)
    (gen : ℕ → Except Unit (Option (List RawHighlight)))
    (choose : List String → String) (transcript : Transcript)
    (meta : VideoMeta) (h : transcript.segments = []) :
    find_highlights cfg modelLoaded gen choose transcript meta = [] := by
  rw [find_highlights, if_pos (by simp [h])]

/-- Claim C8 witness: the empty transcript with an always-raising
generate oracle still yields the empty list. -/
theorem c8_empty_transcript_w :
    (⟨"", []⟩ : Transcript).segments = ([] : List Segment)
    ∧ find_highlights defaultConfig true (fun _ => Except.error ())
        (fun _ => "") ⟨"", []⟩ ⟨""⟩ = [] :=
  ⟨rfl, c8_empty_transcript _ _ _ _ _ _ rfl⟩

/-- Claim C9: a segment whose lower-cased text contains no emotion
keyword, no attention-hook phrase and no boost keyword scores exactly 0,
both before (`baseScore`) and after the word-count penalty and
positional scaling of `_score_segments`. -/
theorem c9_zero_score (weights : String → ℚ) (boost : List String)
    (total i : ℕ) (seg : Segment)
    (h1 : ∀ p ∈ emotionKeywordTable, ∀ kw ∈ p.2,
      occursIn kw (lowerStr seg.text) = false)
    (h2 : ∀ p ∈ hookPhrases, occursIn p (lowerStr seg.text) = false)
    (h3 : ∀ k ∈ boost, occursIn (lowerStr k) (lowerStr seg.text) = false) :
    baseScore weights boost (lowerStr seg.text) = 0
    ∧ (scoreOne weights boost total i seg).score = 0 := by
  have hacc : emotionScoreAcc weights (lowerStr seg.text) = (0, []) := by
    rw [emotionScoreAcc]
    exact foldl_emotionStep_zero weights _ _ _ h1
  have hhook : hookPhrases.countP (fun p => occursIn p (lowerStr seg.text)) = 0 :=
    List.countP_eq_zero.mpr (by intro p hp; simp [h2 p hp])
  have hboost : boost.countP
      (fun k => occursIn (lowerStr k) (lowerStr seg.text)) = 0 :=
    List.countP_eq_zero.mpr (by intro k hk; simp [h3 k hk])
  have hbase : baseScore weights boost (lowerStr seg.text) = 0 := by
    rw [baseScore, hacc, hhook, hboost]
    norm_num
  refine ⟨hbase, ?_⟩
  simp only [scoreOne, hbase]
  split_ifs <;> norm_num

/-- Claim C9 witness: a first-position segment reading `xyzzy qqq`
matches nothing and scores 0 before and after scaling. -/
theorem c9_zero_score_w :
    (∀ p ∈ emotionKeywordTable, ∀ kw ∈ p.2,
      occursIn kw (lowerStr (Segment.mk 0 5 "xyzzy qqq").text) = false)
    ∧ baseScore (fun _ => 1) [] (lowerStr (Segment.mk 0 5 "xyzzy qqq").text) = 0
    ∧ (scoreOne (fun _ => 1) [] 1 0 ⟨0, 5, "xyzzy qqq"⟩).score = 0 := by
  have h1 : ∀ p ∈ emotionKeywordTable, ∀ kw ∈ p.2,
      occursIn kw (lowerStr (Segment.mk 0 5 "xyzzy qqq").text) = false := by
    decide
  have h2 : ∀ p ∈ hookPhrases,
      occursIn p (lowerStr (Segment.mk 0 5 "xyzzy qqq").text) = false := by
    decide
  have h := c9_zero_score (fun _ => 1) [] 1 0 ⟨0, 5, "xyzzy qqq"⟩ h1 h2
    (by intro k hk; exact absurd hk (List.not_mem_nil k))
  exact ⟨h1, h.1, h.2⟩

/-- Claim C10: `_split_transcript` partitions the segment sequence —
concatenating the chunks' segment lists in order reproduces the input
exactly; the 200-character overlap lives only in the chunk text. -/
theorem c10_chunk_partition (segs : List Segment) :
    ((split_transcript segs).map Chunk.segments).flatten = segs := by
  rw [split_transcript, splitGo_join segs ⟨"", [], 0, 0⟩ (fun _ => rfl)]
  rfl
